import Mathlib

/-!
Verification of the panhandler Adjudication & Supervision Decision Engine
specification against the repository.  The adjudicator, supervisor and
scope-creep components are described by the design document while the agent
classes in the repository are stubs, so those components are modelled
directly from the specification text; the migration manager and the base
agent are embedded from `packages/core/src/database.ts` and the
`BaseAgent` class.
-/

namespace Panhandler

/-- Verdict of an adjudication run (closed enum per the design notes). -/
inductive Verdict
  | Proceed
  | Investigate
  | Reject
deriving DecidableEq, Repr

/-- Modelled from the spec: `WeightProfile` with non-negative cost, timeline
and risk weights (need not sum to 1, normalized at evaluation time). -/
structure WeightProfile where
  costWeight : ℚ
  timelineWeight : ℚ
  riskWeight : ℚ
deriving DecidableEq, Repr

/-- Modelled from the spec: `MacroStepEstimate` — immutable snapshot of the
cost, timeline and risk estimates for one macro step, with the per-estimate
confidence values used by the confidence cap. -/
structure MacroStepEstimate where
  costUsd : ℚ
  costConfidence : ℚ
  timelineHours : ℚ
  timelineConfidence : ℚ
  riskScore : ℚ
  riskConfidence : ℚ
deriving DecidableEq, Repr

/-- Modelled from the spec: the externally supplied normalization inputs
`projectBudgetRemaining` and `remainingScheduleSlack`. -/
structure ProjectContext where
  projectBudgetRemaining : ℚ
  remainingScheduleSlack : ℚ
deriving DecidableEq, Repr

/-- clamp a value into `[lo, hi]`. -/
def clamp (x lo hi : ℚ) : ℚ := max lo (min x hi)

/-- The three normalized 0–1 badness dimensions of an estimate. -/
structure Badness where
  cost : ℚ
  timeline : ℚ
  risk : ℚ
deriving DecidableEq, Repr

/-- Modelled from the spec: normalize each estimate dimension to a badness
score; `riskBadness` is the risk score itself. -/
def badnessOf (ctx : ProjectContext) (e : MacroStepEstimate) : Badness :=
  { cost := clamp (e.costUsd / ctx.projectBudgetRemaining) 0 1
    timeline := clamp (e.timelineHours / ctx.remainingScheduleSlack) 0 1
    risk := e.riskScore }

/-- Sum of the three weights of a profile. -/
def weightSum (w : WeightProfile) : ℚ :=
  w.costWeight + w.timelineWeight + w.riskWeight

/-- Modelled from the spec: the weighted score
`(costWeight*costBadness + timelineWeight*timelineBadness + riskWeight*riskBadness)
 / (costWeight+timelineWeight+riskWeight)`. -/
def weightedScore (w : WeightProfile) (b : Badness) : ℚ :=
  (w.costWeight * b.cost + w.timelineWeight * b.timeline + w.riskWeight * b.risk)
    / weightSum w

/-- Modelled from the spec: verdict thresholds — score `< 0.4` Proceed,
`< 0.7` Investigate, otherwise Reject; boundaries go to higher scrutiny. -/
def verdictFromScore (s : ℚ) : Verdict :=
  if s < 4/10 then .Proceed
  else if s < 7/10 then .Investigate
  else .Reject

/-- Some estimate dimension has confidence below `0.5`. -/
def anyLowConfidence (e : MacroStepEstimate) : Prop :=
  e.costConfidence < 1/2 ∨ e.timelineConfidence < 1/2 ∨ e.riskConfidence < 1/2

instance (e : MacroStepEstimate) : Decidable (anyLowConfidence e) :=
  inferInstanceAs (Decidable (_ ∨ _ ∨ _))

/-- The confidence cap: a Proceed verdict is raised to Investigate. -/
def capAtInvestigate : Verdict → Verdict
  | .Proceed => .Investigate
  | v => v

/-- Modelled from the spec: `adjudicate` — score the estimate, take the
threshold verdict, and cap it at Investigate when any confidence is
below `0.5`. -/
def adjudicate (ctx : ProjectContext) (e : MacroStepEstimate) (w : WeightProfile) :
    Verdict :=
  let v := verdictFromScore (weightedScore w (badnessOf ctx e))
  if anyLowConfidence e then capAtInvestigate v else v

/-- C1 counterexample: an estimate with cost confidence `0.3` and weighted
score `0 < 0.4` is adjudicated Investigate, not Proceed, so the verdict is
not determined by the score thresholds alone. -/
theorem adjudicate_low_conf_counterexample :
    weightedScore ⟨1, 1, 1⟩ (badnessOf ⟨100, 100⟩ ⟨0, 3/10, 0, 9/10, 0, 9/10⟩) < 4/10 ∧
    adjudicate ⟨100, 100⟩ ⟨0, 3/10, 0, 9/10, 0, 9/10⟩ ⟨1, 1, 1⟩ ≠ .Proceed := by
  constructor
  · norm_num [weightedScore, weightSum, badnessOf, clamp]
  · norm_num [adjudicate, anyLowConfidence, verdictFromScore, weightedScore, weightSum,
      badnessOf, clamp, capAtInvestigate]
    decide

/-- C1 (amended): when no estimate confidence is below `0.5`, the verdict is
determined by the weighted score; the Investigate and Reject buckets (so in
particular the boundary values `0.4` and `0.7`) hold for every estimate. -/
theorem adjudicate_threshold_verdicts (ctx : ProjectContext) (e : MacroStepEstimate)
    (w : WeightProfile) :
    (¬ anyLowConfidence e → weightedScore w (badnessOf ctx e) < 4/10 →
      adjudicate ctx e w = .Proceed) ∧
    (4/10 ≤ weightedScore w (badnessOf ctx e) → weightedScore w (badnessOf ctx e) < 7/10 →
      adjudicate ctx e w = .Investigate) ∧
    (7/10 ≤ weightedScore w (badnessOf ctx e) → adjudicate ctx e w = .Reject) := by
  refine ⟨fun hconf hs => ?_, fun h1 h2 => ?_, fun h1 => ?_⟩
  · simp [adjudicate, verdictFromScore, hs, hconf]
  · have hn : ¬ weightedScore w (badnessOf ctx e) < 4/10 := not_lt.mpr h1
    by_cases hc : anyLowConfidence e <;>
      simp [adjudicate, verdictFromScore, hn, h2, hc, capAtInvestigate]
  · have hn4 : ¬ weightedScore w (badnessOf ctx e) < 4/10 := not_lt.mpr (by linarith)
    have hn7 : ¬ weightedScore w (badnessOf ctx e) < 7/10 := not_lt.mpr h1
    by_cases hc : anyLowConfidence e <;>
      simp [adjudicate, verdictFromScore, hn4, hn7, hc, capAtInvestigate]

/-- C1 witness: a confident estimate with weighted score `1/6 < 0.4` is
adjudicated Proceed. -/
theorem adjudicate_threshold_verdicts_witness :
    adjudicate ⟨100, 100⟩ ⟨20, 9/10, 20, 9/10, 1/10, 9/10⟩ ⟨1, 1, 1⟩ = .Proceed :=
  (adjudicate_threshold_verdicts ⟨100, 100⟩ ⟨20, 9/10, 20, 9/10, 1/10, 9/10⟩ ⟨1, 1, 1⟩).1
    (by norm_num [anyLowConfidence]) (by norm_num [weightedScore, weightSum, badnessOf, clamp])

/-- C2: whenever some estimate confidence is below `0.5`, the adjudication
verdict is never Proceed, regardless of the weighted score. -/
theorem adjudicate_confidence_cap (ctx : ProjectContext) (e : MacroStepEstimate)
    (w : WeightProfile) (h : anyLowConfidence e) :
    adjudicate ctx e w ≠ .Proceed := by
  have hcap : ∀ v, capAtInvestigate v ≠ .Proceed := by
    intro v; cases v <;> simp [capAtInvestigate]
  simp only [adjudicate, if_pos h]
  exact hcap _

/-- C2 witness: an estimate with timeline confidence `0.2` and score `0`
is not adjudicated Proceed. -/
theorem adjudicate_confidence_cap_witness :
    anyLowConfidence ⟨0, 9/10, 0, 2/10, 0, 9/10⟩ ∧
    adjudicate ⟨50, 50⟩ ⟨0, 9/10, 0, 2/10, 0, 9/10⟩ ⟨2, 1, 1⟩ ≠ .Proceed :=
  ⟨by norm_num [anyLowConfidence],
   adjudicate_confidence_cap ⟨50, 50⟩ ⟨0, 9/10, 0, 2/10, 0, 9/10⟩ ⟨2, 1, 1⟩
     (by norm_num [anyLowConfidence])⟩

/-- C7: with non-negative weights, increasing one badness dimension while the
other two stay fixed never decreases the weighted score. -/
theorem weightedScore_monotone (w : WeightProfile)
    (hc : 0 ≤ w.costWeight) (ht : 0 ≤ w.timelineWeight) (hr : 0 ≤ w.riskWeight)
    (b1 b2 : Badness)
    (h : (b1.cost ≤ b2.cost ∧ b1.timeline = b2.timeline ∧ b1.risk = b2.risk) ∨
         (b1.cost = b2.cost ∧ b1.timeline ≤ b2.timeline ∧ b1.risk = b2.risk) ∨
         (b1.cost = b2.cost ∧ b1.timeline = b2.timeline ∧ b1.risk ≤ b2.risk)) :
    weightedScore w b1 ≤ weightedScore w b2 := by
  have hnum : w.costWeight * b1.cost + w.timelineWeight * b1.timeline +
      w.riskWeight * b1.risk ≤
      w.costWeight * b2.cost + w.timelineWeight * b2.timeline + w.riskWeight * b2.risk := by
    rcases h with ⟨h1, h2, h3⟩ | ⟨h1, h2, h3⟩ | ⟨h1, h2, h3⟩
    · rw [h2, h3]; have := mul_le_mul_of_nonneg_left h1 hc; linarith
    · rw [h1, h3]; have := mul_le_mul_of_nonneg_left h2 ht; linarith
    · rw [h1, h2]; have := mul_le_mul_of_nonneg_left h3 hr; linarith
  by_cases hS : weightSum w = 0
  · have hc0 : w.costWeight = 0 := by unfold weightSum at hS; linarith
    have ht0 : w.timelineWeight = 0 := by unfold weightSum at hS; linarith
    have hr0 : w.riskWeight = 0 := by unfold weightSum at hS; linarith
    simp [weightedScore, hc0, ht0, hr0]
  · have hS0 : 0 ≤ weightSum w := by unfold weightSum; linarith
    have hSpos : 0 < weightSum w := lt_of_le_of_ne hS0 (Ne.symm hS)
    unfold weightedScore
    exact (div_le_div_iff_of_pos_right hSpos).mpr hnum

/-- C7 witness: raising cost badness from 0 to 1 with unit weights does not
decrease the score. -/
theorem weightedScore_monotone_witness :
    weightedScore ⟨1, 1, 1⟩ ⟨0, 0, 0⟩ ≤ weightedScore ⟨1, 1, 1⟩ ⟨1, 0, 0⟩ :=
  weightedScore_monotone ⟨1, 1, 1⟩ (by norm_num) (by norm_num) (by norm_num) ⟨0, 0, 0⟩ ⟨1, 0, 0⟩
    (Or.inl ⟨by norm_num, rfl, rfl⟩)

/-- Modelled from the spec: the supervision tiers. -/
inductive SupervisionTier
  | Budget
  | Standard
  | Premium
deriving DecidableEq, Repr

/-- Modelled from the spec: tier activation thresholds — Budget=25,
Standard=15, Premium=5. -/
def activationThreshold : SupervisionTier → ℤ
  | .Budget => 25
  | .Standard => 15
  | .Premium => 5

/-- Modelled from the spec: the project event kinds of the static catalog,
plus the zero-weight `periodicCheck` timer event. -/
inductive EventKind
  | microStepFailure
  | timelineOverrun
  | costOverrun
  | qualityGateFailure
  | dependencyDeadlock
  | stalledProgress
  | periodicCheck
deriving DecidableEq, Repr

/-- Modelled from the spec: the static `EventWeight` catalog —
microStepFailure=10, timelineOverrun>50%=15, costOverrun>25%=20,
qualityGateFailure=12, dependencyDeadlock=25, stalledProgress=8,
and 0 for the timer event. -/
def eventWeight : EventKind → ℤ
  | .microStepFailure => 10
  | .timelineOverrun => 15
  | .costOverrun => 20
  | .qualityGateFailure => 12
  | .dependencyDeadlock => 25
  | .stalledProgress => 8
  | .periodicCheck => 0

/-- Modelled from the spec: `SupervisionAccumulatorState` — per-project
mutable counter with its window bookkeeping. -/
structure AccumulatorState where
  accumulatedWeight : ℤ
  windowStart : ℤ
  lastEventAt : ℤ
deriving DecidableEq, Repr

/-- Modelled from the spec: the record emitted on supervisor activation. -/
structure SupervisionActivation where
  tier : SupervisionTier
  triggeredAt : ℤ
  accumulatedWeightAtTrigger : ℤ
deriving DecidableEq, Repr

/-- Modelled from the spec: `recordEvent` — add the event weight to the
accumulator; on reaching the tier threshold emit an activation, reset the
weight to 0 and start a new window at `now`. -/
def recordEvent (tier : SupervisionTier) (st : AccumulatorState) (k : EventKind)
    (now : ℤ) : AccumulatorState × Option SupervisionActivation :=
  let acc := st.accumulatedWeight + eventWeight k
  if activationThreshold tier ≤ acc then
    ({ accumulatedWeight := 0, windowStart := now, lastEventAt := now },
     some { tier := tier, triggeredAt := now, accumulatedWeightAtTrigger := acc })
  else
    ({ accumulatedWeight := acc, windowStart := st.windowStart, lastEventAt := now },
     none)

/-- Process a sequence of events for one project, collecting activations. -/
def runEvents (tier : SupervisionTier) (st : AccumulatorState) (now : ℤ) :
    List EventKind → AccumulatorState × List SupervisionActivation
  | [] => (st, [])
  | k :: rest =>
    let step := recordEvent tier st k now
    let next := runEvents tier step.1 (now + 1) rest
    (next.1, step.2.toList ++ next.2)

/-- Accumulator state at project start. -/
def initState : AccumulatorState :=
  { accumulatedWeight := 0, windowStart := 0, lastEventAt := 0 }

/-- Total catalog weight of an event sequence. -/
def totalWeight (evs : List EventKind) : ℤ := (evs.map eventWeight).sum

theorem eventWeight_nonneg (k : EventKind) : 0 ≤ eventWeight k := by
  cases k <;> norm_num [eventWeight]

theorem totalWeight_nonneg (evs : List EventKind) : 0 ≤ totalWeight evs := by
  unfold totalWeight
  exact List.sum_nonneg (by
    intro x hx
    rcases List.mem_map.mp hx with ⟨k, _, rfl⟩
    exact eventWeight_nonneg k)

theorem threshold_pos (tier : SupervisionTier) : 0 < activationThreshold tier := by
  cases tier <;> norm_num [activationThreshold]

theorem runEvents_below (tier : SupervisionTier) (evs : List EventKind) :
    ∀ st now, st.accumulatedWeight + totalWeight evs < activationThreshold tier →
      (runEvents tier st now evs).2 = [] ∧
      (runEvents tier st now evs).1.accumulatedWeight =
        st.accumulatedWeight + totalWeight evs := by
  induction evs with
  | nil =>
    intro st now _
    simp [runEvents, totalWeight]
  | cons k rest ih =>
    intro st now hlt
    have hrest : 0 ≤ totalWeight rest := totalWeight_nonneg rest
    have htot : totalWeight (k :: rest) = eventWeight k + totalWeight rest := by
      simp [totalWeight]
    have hstep : ¬ activationThreshold tier ≤ st.accumulatedWeight + eventWeight k := by
      rw [htot] at hlt
      push_neg
      linarith
    have hrec : recordEvent tier st k now =
        ({ accumulatedWeight := st.accumulatedWeight + eventWeight k,
           windowStart := st.windowStart, lastEventAt := now }, none) := by
      simp [recordEvent, hstep]
    have hnext := ih ⟨st.accumulatedWeight + eventWeight k, st.windowStart, now⟩ (now + 1)
      (by
        rw [htot] at hlt
        simpa using by linarith)
    simp only [runEvents, hrec]
    refine ⟨?_, ?_⟩
    · simpa using hnext.1
    · rw [htot]
      simpa [add_assoc] using hnext.2

theorem runEvents_exact (tier : SupervisionTier) (evs : List EventKind) :
    ∀ st now, 0 ≤ st.accumulatedWeight →
      st.accumulatedWeight < activationThreshold tier →
      st.accumulatedWeight + totalWeight evs = activationThreshold tier →
      (runEvents tier st now evs).2.length = 1 ∧
      (runEvents tier st now evs).1.accumulatedWeight = 0 := by
  induction evs with
  | nil =>
    intro st now _ hlt hsum
    simp [totalWeight] at hsum
    omega
  | cons k rest ih =>
    intro st now hnn hlt hsum
    have hrest : 0 ≤ totalWeight rest := totalWeight_nonneg rest
    have hw : 0 ≤ eventWeight k := eventWeight_nonneg k
    have htot : totalWeight (k :: rest) = eventWeight k + totalWeight rest := by
      simp [totalWeight]
    rw [htot] at hsum
    by_cases hcross : activationThreshold tier ≤ st.accumulatedWeight + eventWeight k
    · have hrec : recordEvent tier st k now =
          ({ accumulatedWeight := 0, windowStart := now, lastEventAt := now },
           some { tier := tier, triggeredAt := now,
                  accumulatedWeightAtTrigger := st.accumulatedWeight + eventWeight k }) := by
        simp [recordEvent, hcross]
      have hrest0 : totalWeight rest = 0 := by omega
      have hbelow := runEvents_below tier rest
        { accumulatedWeight := 0, windowStart := now, lastEventAt := now } (now + 1)
        (by
          simp only []
          rw [hrest0]
          simpa using threshold_pos tier)
      simp only [runEvents, hrec]
      constructor
      · simp [hbelow.1]
      · simpa [hrest0] using hbelow.2
    · have hrec : recordEvent tier st k now =
          ({ accumulatedWeight := st.accumulatedWeight + eventWeight k,
             windowStart := st.windowStart, lastEventAt := now }, none) := by
        simp [recordEvent, hcross]
      push_neg at hcross
      have hnext := ih ⟨st.accumulatedWeight + eventWeight k, st.windowStart, now⟩ (now + 1)
        (by simpa using by linarith)
        (by simpa using hcross)
        (by simpa [add_assoc] using hsum)
      simp only [runEvents, hrec]
      constructor
      · simpa using hnext.1
      · simpa using hnext.2

theorem runEvents_reaches (tier : SupervisionTier) (evs : List EventKind) :
    ∀ st now, st.accumulatedWeight < activationThreshold tier →
      activationThreshold tier ≤ st.accumulatedWeight + totalWeight evs →
      1 ≤ (runEvents tier st now evs).2.length := by
  induction evs with
  | nil =>
    intro st now hlt hge
    simp [totalWeight] at hge
    omega
  | cons k rest ih =>
    intro st now hlt hge
    have htot : totalWeight (k :: rest) = eventWeight k + totalWeight rest := by
      simp [totalWeight]
    rw [htot] at hge
    by_cases hcross : activationThreshold tier ≤ st.accumulatedWeight + eventWeight k
    · have hrec : recordEvent tier st k now =
          ({ accumulatedWeight := 0, windowStart := now, lastEventAt := now },
           some { tier := tier, triggeredAt := now,
                  accumulatedWeightAtTrigger := st.accumulatedWeight + eventWeight k }) := by
        simp [recordEvent, hcross]
      simp [runEvents, hrec]
    · have hrec : recordEvent tier st k now =
          ({ accumulatedWeight := st.accumulatedWeight + eventWeight k,
             windowStart := st.windowStart, lastEventAt := now }, none) := by
        simp [recordEvent, hcross]
      push_neg at hcross
      have hnext := ih ⟨st.accumulatedWeight + eventWeight k, st.windowStart, now⟩ (now + 1)
        (by simpa using hcross)
        (by simpa [add_assoc] using hge)
      simp only [runEvents, hrec]
      simpa using hnext

/-- C3: a sequence whose weights reach the tier threshold triggers at least
one activation; when the weights sum to exactly the threshold, exactly one
activation fires and the accumulated weight ends at 0; in each step the
reset to 0 and the new window happen exactly when an activation is emitted,
otherwise the weight just accumulates, and it never goes negative. -/
theorem supervision_threshold_crossing (tier : SupervisionTier)
    (evs : List EventKind) (now : ℤ)
    (hsum : activationThreshold tier ≤ totalWeight evs) :
    1 ≤ (runEvents tier initState now evs).2.length ∧
    (totalWeight evs = activationThreshold tier →
      (runEvents tier initState now evs).2.length = 1 ∧
      (runEvents tier initState now evs).1.accumulatedWeight = 0) ∧
    (∀ st : AccumulatorState, ∀ k : EventKind, ∀ n : ℤ,
      0 ≤ st.accumulatedWeight →
      0 ≤ (recordEvent tier st k n).1.accumulatedWeight ∧
      ((recordEvent tier st k n).2.isSome →
        (recordEvent tier st k n).1.accumulatedWeight = 0 ∧
        (recordEvent tier st k n).1.windowStart = n) ∧
      ((recordEvent tier st k n).2 = none →
        (recordEvent tier st k n).1.accumulatedWeight =
          st.accumulatedWeight + eventWeight k)) := by
  refine ⟨?_, fun heq => ?_, fun st k n hnn => ?_⟩
  · exact runEvents_reaches tier evs initState now (threshold_pos tier)
      (by simpa [initState] using hsum)
  · exact runEvents_exact tier evs initState now (by simp [initState])
      (by simpa [initState] using threshold_pos tier)
      (by simpa [initState] using heq)
  · have hw : 0 ≤ eventWeight k := eventWeight_nonneg k
    by_cases hcross : activationThreshold tier ≤ st.accumulatedWeight + eventWeight k
    · refine ⟨?_, ?_, ?_⟩ <;> simp [recordEvent, hcross]
    · refine ⟨?_, ?_, ?_⟩ <;> simp only [recordEvent, if_neg hcross] <;> first
        | linarith
        | simp

/-- C3 witness: in the Budget tier, three `microStepFailure` events sum to 30
which crosses the threshold 25, so at least one activation fires. -/
theorem supervision_threshold_crossing_witness :
    1 ≤ (runEvents .Budget initState 0
      [.microStepFailure, .microStepFailure, .microStepFailure]).2.length :=
  (supervision_threshold_crossing .Budget
    [.microStepFailure, .microStepFailure, .microStepFailure] 0
    (by norm_num [totalWeight, eventWeight, activationThreshold])).1

/-- C6: under the Budget tier, a sequence made only of events whose weight is
below the deadlock weight needs at least two events to reach the threshold,
while a single `dependencyDeadlock` event alone fires an activation. -/
theorem budget_deadlock_dominance (evs : List EventKind)
    (hlow : ∀ e ∈ evs, eventWeight e < eventWeight .dependencyDeadlock)
    (hcross : activationThreshold .Budget ≤ totalWeight evs) :
    2 ≤ evs.length ∧
    (runEvents .Budget initState 0 [.dependencyDeadlock]).2.length = 1 := by
  constructor
  · match evs, hlow, hcross with
    | [], _, hcross => simp [totalWeight, activationThreshold] at hcross
    | [e], hlow, hcross =>
      have h1 := hlow e (by simp)
      have h2 : totalWeight [e] = eventWeight e := by simp [totalWeight]
      rw [h2] at hcross
      simp [eventWeight, activationThreshold] at h1 hcross
      omega
    | e1 :: e2 :: rest, _, _ => simp
  · norm_num [runEvents, recordEvent, initState, eventWeight, activationThreshold]

/-- C6 witness: a cost overrun plus a micro step failure (weights 20 and 10,
each below 25) reach the Budget threshold with two events. -/
theorem budget_deadlock_dominance_witness :
    2 ≤ ([EventKind.costOverrun, EventKind.microStepFailure] : List EventKind).length :=
  (budget_deadlock_dominance [.costOverrun, .microStepFailure]
    (by
      intro e he
      simp only [List.mem_cons, List.not_mem_nil, or_false] at he
      rcases he with rfl | rfl <;> norm_num [eventWeight])
    (by norm_num [totalWeight, eventWeight, activationThreshold])).1

/-- Classification of a scope change (closed enum per the design notes). -/
inductive Classification
  | LocalHandling
  | Escalate
deriving DecidableEq, Repr

/-- Modelled from the spec: `ScopeChangeRecord` as reported, before its
classification is set. -/
structure ScopeChangeRecord where
  reportedStepId : String
  estimatedEffortDeltaPct : ℚ
  touchesOtherMacroSteps : Bool
  newDependenciesIntroduced : Bool
deriving DecidableEq, Repr

/-- Modelled from the spec: the scope-creep decision rule — LocalHandling
only when the effort delta is below 25%, no other macro steps are touched,
no new dependencies are introduced, and the cumulative ledger plus this
change stays under the budget-variance tolerance; otherwise Escalate. -/
def classify (c : ScopeChangeRecord) (ledgerTotal tolerance : ℚ) : Classification :=
  if c.estimatedEffortDeltaPct < 25 ∧
      c.touchesOtherMacroSteps = false ∧
      c.newDependenciesIntroduced = false ∧
      ledgerTotal + c.estimatedEffortDeltaPct < tolerance then
    .LocalHandling
  else
    .Escalate

/-- C4: `classify` returns LocalHandling exactly when all four conditions
hold, and an effort delta of 30% forces Escalate regardless of the other
fields. -/
theorem classify_rule (c : ScopeChangeRecord) (ledgerTotal tolerance : ℚ) :
    (classify c ledgerTotal tolerance = .LocalHandling ↔
      (c.estimatedEffortDeltaPct < 25 ∧
       c.touchesOtherMacroSteps = false ∧
       c.newDependenciesIntroduced = false ∧
       ledgerTotal + c.estimatedEffortDeltaPct < tolerance)) ∧
    (c.estimatedEffortDeltaPct = 30 → classify c ledgerTotal tolerance = .Escalate) := by
  constructor
  · unfold classify
    split
    · next hcond => simp [hcond]
    · next hcond =>
        exact ⟨fun h => Classification.noConfusion h, fun h => absurd h hcond⟩
  · intro h30
    have : ¬ c.estimatedEffortDeltaPct < 25 := by rw [h30]; norm_num
    unfold classify
    rw [if_neg]
    simp [this]

/-- C4 witness: a 30% effort delta with every other condition favourable is
still classified Escalate. -/
theorem classify_rule_witness :
    classify ⟨"step-1", 30, false, false⟩ 0 100 = .Escalate :=
  (classify_rule ⟨"step-1", 30, false, false⟩ 0 100).2 rfl

/-- A scope change together with its write-once classification. -/
structure ClassifiedChange where
  change : ScopeChangeRecord
  classification : Classification
deriving DecidableEq, Repr

/-- Modelled from the spec: the per-project creep ledger — the classified
records so far and the running total of effort-delta percentages. -/
structure CreepLedger where
  records : List ClassifiedChange
  ledgerTotal : ℚ
deriving DecidableEq, Repr

/-- Modelled from the spec: processing a reported scope change classifies it
against the current ledger, appends the classified record (records are
immutable once classified) and accumulates its effort delta. -/
def processScopeChange (tolerance : ℚ) (st : CreepLedger) (c : ScopeChangeRecord) :
    CreepLedger :=
  { records := st.records ++ [⟨c, classify c st.ledgerTotal tolerance⟩]
    ledgerTotal := st.ledgerTotal + c.estimatedEffortDeltaPct }

/-- Process a stream of reported scope changes. -/
def processScopeChanges (tolerance : ℚ) (st : CreepLedger) :
    List ScopeChangeRecord → CreepLedger
  | [] => st
  | c :: rest => processScopeChanges tolerance (processScopeChange tolerance st c) rest

theorem processScopeChange_preserves (tolerance : ℚ) (st : CreepLedger)
    (c : ScopeChangeRecord) (i : ℕ) (hi : i < st.records.length) :
    (processScopeChange tolerance st c).records.get? i = st.records.get? i := by
  unfold processScopeChange
  simp only [List.get?_eq_getElem?]
  exact List.getElem?_append_left hi

/-- C5: once a scope change record is classified Escalate, processing any
further scope changes never alters it — in every later ledger state the
record is still present, unchanged, and still Escalate. -/
theorem escalate_one_way (tolerance : ℚ) (st : CreepLedger)
    (cs : List ScopeChangeRecord) (i : ℕ) (r : ClassifiedChange)
    (hi : st.records.get? i = some r) (hr : r.classification = .Escalate) :
    (processScopeChanges tolerance st cs).records.get? i = some r ∧
    r.classification = .Escalate := by
  refine ⟨?_, hr⟩
  induction cs generalizing st with
  | nil => simpa [processScopeChanges] using hi
  | cons c rest ih =>
    have hlen : i < st.records.length := by
      rw [List.get?_eq_getElem?] at hi
      exact (List.getElem?_eq_some.mp hi).1
    have hstep := processScopeChange_preserves tolerance st c i hlen
    exact ih (processScopeChange tolerance st c) (hstep.trans hi)

/-- C5 witness: an Escalate record stays Escalate after two further scope
changes are processed. -/
theorem escalate_one_way_witness :
    (processScopeChanges 100 ⟨[⟨⟨"s0", 40, true, false⟩, .Escalate⟩], 40⟩
        [⟨"s1", 5, false, false⟩, ⟨"s2", 10, false, false⟩]).records.get? 0 =
      some ⟨⟨"s0", 40, true, false⟩, .Escalate⟩ :=
  (escalate_one_way 100 ⟨[⟨⟨"s0", 40, true, false⟩, .Escalate⟩], 40⟩
    [⟨"s1", 5, false, false⟩, ⟨"s2", 10, false, false⟩] 0
    ⟨⟨"s0", 40, true, false⟩, .Escalate⟩ rfl rfl).1

/-- The only fatal error of the weight profile resolver. -/
inductive ResolveError
  | ProjectNotFound
deriving DecidableEq, Repr

/-- Modelled from the spec: a project's stored preference record — its
weight profile and, when a budget record exists, the supervision tier
resolved from it. -/
structure StoredProject where
  weights : WeightProfile
  budgetTier : Option SupervisionTier
deriving DecidableEq, Repr

/-- Default weights used when a project has no budget record: the equal
weighting of one third per factor. -/
def defaultWeights : WeightProfile := ⟨1/3, 1/3, 1/3⟩

/-- Modelled from the spec: normalization of a weight profile — divide each
weight by their sum, falling back to equal weighting 1/3 each when the sum
is 0. -/
def normalizeWeights (w : WeightProfile) : WeightProfile :=
  if weightSum w = 0 then defaultWeights
  else ⟨w.costWeight / weightSum w, w.timelineWeight / weightSum w,
        w.riskWeight / weightSum w⟩

/-- Look up a project record in the preference store. -/
def lookupProject (store : List (String × StoredProject)) (pid : String) :
    Option StoredProject :=
  (store.find? (fun p => p.1 == pid)).map (fun p => p.2)

/-- Modelled from the spec: `resolve(projectId)` — fatal `ProjectNotFound`
for a missing project; Budget tier with default weights when there is no
budget record; otherwise the stored weights normalized and the stored
tier. -/
def resolve (store : List (String × StoredProject)) (pid : String) :
    Except ResolveError (WeightProfile × SupervisionTier) :=
  match lookupProject store pid with
  | none => .error .ProjectNotFound
  | some p =>
    match p.budgetTier with
    | none => .ok (normalizeWeights defaultWeights, .Budget)
    | some tier => .ok (normalizeWeights p.weights, tier)

theorem normalizeWeights_default : normalizeWeights defaultWeights = defaultWeights := by
  norm_num [normalizeWeights, weightSum, defaultWeights]

/-- C8: the resolver never fails on degenerate configuration — a stored
profile whose weights sum to 0 resolves to the equal 1/3 weighting, a
project without a budget record resolves to the Budget tier with the
default weights rather than an error, and an error is produced exactly for
a project that is not in the store, in which case it is `ProjectNotFound`. -/
theorem resolve_degenerate_safe (store : List (String × StoredProject)) (pid : String) :
    (∀ p tier, lookupProject store pid = some p → p.budgetTier = some tier →
      weightSum p.weights = 0 →
      resolve store pid = .ok (⟨1/3, 1/3, 1/3⟩, tier)) ∧
    (∀ p, lookupProject store pid = some p → p.budgetTier = none →
      resolve store pid = .ok (defaultWeights, .Budget)) ∧
    (∀ e, resolve store pid = .error e →
      e = .ProjectNotFound ∧ lookupProject store pid = none) ∧
    (lookupProject store pid = none → resolve store pid = .error .ProjectNotFound) := by
  refine ⟨fun p tier hp htier hzero => ?_, fun p hp htier => ?_, fun e he => ?_, fun hn => ?_⟩
  · have : normalizeWeights p.weights = defaultWeights := by
      simp [normalizeWeights, hzero]
    simp [resolve, hp, htier, this, defaultWeights]
  · simp [resolve, hp, htier, normalizeWeights_default]
  · cases hl : lookupProject store pid with
    | none => cases e; exact ⟨rfl, rfl⟩
    | some p =>
      exfalso
      unfold resolve at he
      rw [hl] at he
      cases htier : p.budgetTier with
      | none => simp [htier] at he
      | some tier => simp [htier] at he
  · simp [resolve, hn]

/-- C8 witness: a store holding a zero-weight project with a Standard budget
record, a project without a budget record, and nothing else, exercises all
conjuncts of the resolver theorem. -/
theorem resolve_degenerate_safe_witness :
    resolve [("p1", ⟨⟨0, 0, 0⟩, some .Standard⟩), ("p2", ⟨⟨2, 1, 1⟩, none⟩)] "p1" =
      .ok (⟨1/3, 1/3, 1/3⟩, .Standard) :=
  (resolve_degenerate_safe [("p1", ⟨⟨0, 0, 0⟩, some .Standard⟩), ("p2", ⟨⟨2, 1, 1⟩, none⟩)]
    "p1").1 ⟨⟨0, 0, 0⟩, some .Standard⟩ .Standard rfl rfl (by norm_num [weightSum])

/-- A migration as `MigrationManager` sees it: its id and whether the
runner's `applyMigration` call for it returns status applied (the SQL side
effects are external). -/
structure Migration where
  id : String
  succeeds : Bool
deriving DecidableEq, Repr

/-- Ascending order on migration ids; `localeCompare` on the id strings is
modelled as the lexicographic string order. -/
def migOrder (a b : Migration) : Prop := a.id ≤ b.id

instance : DecidableRel migOrder := fun a b =>
  inferInstanceAs (Decidable (a.id ≤ b.id))

instance : IsTotal Migration migOrder := ⟨fun a b => le_total a.id b.id⟩

instance : IsTrans Migration migOrder := ⟨fun _ _ _ h1 h2 => le_trans h1 h2⟩

/-- `MigrationManager.addMigration` from `packages/core/src/database.ts`:
push the migration, then sort the whole list by id. -/
def addMigration (migs : List Migration) (m : Migration) : List Migration :=
  List.insertionSort migOrder (migs ++ [m])

/-- Status of one migration run (the `rolled_back` case is unused by
`migrate`). -/
inductive MigStatus
  | applied
  | rolled_back
  | failed
deriving DecidableEq, Repr

/-- The id/status part of `MigrationResult` (durations are wall-clock and
not modelled). -/
structure MigrationResult where
  id : String
  status : MigStatus
deriving DecidableEq, Repr

/-- `MigrationManager.migrate` from `packages/core/src/database.ts`: walk
the migration list in order, skip ids already recorded as applied, apply
the rest, and break out of the loop after the first failed result. -/
def migrate (appliedIds : List String) : List Migration → List MigrationResult
  | [] => []
  | m :: rest =>
    if appliedIds.contains m.id then migrate appliedIds rest
    else if m.succeeds then ⟨m.id, .applied⟩ :: migrate appliedIds rest
    else [⟨m.id, .failed⟩]

/-- The pending migrations: those whose ids are not recorded as applied, in
list order. -/
def pendingMigs (appliedIds : List String) (migs : List Migration) : List Migration :=
  migs.filter (fun m => !appliedIds.contains m.id)

/-- Claim-side description of `migrate`: exactly the pending migrations, in
order, truncated at the first failing one, the successful ones marked
applied. -/
def migrateDescribed (appliedIds : List String) (migs : List Migration) :
    List MigrationResult :=
  let p := pendingMigs appliedIds migs
  match p.dropWhile (fun m => m.succeeds) with
  | [] => p.map (fun m => ⟨m.id, .applied⟩)
  | m :: _ =>
    (p.takeWhile (fun m => m.succeeds)).map (fun m => ⟨m.id, .applied⟩) ++
      [⟨m.id, .failed⟩]

/-- C9: the migration list is sorted ascending by id after every
`addMigration`, and `migrate` produces exactly the results of the pending
migrations in that order, truncated at the first failure. -/
theorem migration_manager_behavior :
    (∀ migs m, List.Sorted migOrder (addMigration migs m)) ∧
    (∀ appliedIds migs, migrate appliedIds migs = migrateDescribed appliedIds migs) := by
  constructor
  · intro migs m
    exact List.sorted_insertionSort migOrder (migs ++ [m])
  · intro appliedIds migs
    induction migs with
    | nil => rfl
    | cons m rest ih =>
      by_cases hmem : appliedIds.contains m.id = true
      · have hm : m.id ∈ appliedIds := by simpa using hmem
        have hp : pendingMigs appliedIds (m :: rest) = pendingMigs appliedIds rest := by
          simp [pendingMigs, List.filter_cons, hm]
        simp only [migrate]
        rw [if_pos hmem, ih]
        unfold migrateDescribed
        rw [hp]
      · have hm : m.id ∉ appliedIds := by simpa using hmem
        have hp : pendingMigs appliedIds (m :: rest) = m :: pendingMigs appliedIds rest := by
          simp [pendingMigs, List.filter_cons, hm]
        by_cases hs : m.succeeds = true
        · simp only [migrate]
          rw [if_neg hmem, if_pos hs, ih]
          unfold migrateDescribed
          rw [hp]
          cases hdrop : (pendingMigs appliedIds rest).dropWhile (fun m => m.succeeds) with
          | nil => simp [List.dropWhile_cons, List.takeWhile_cons, hs, hdrop]
          | cons mf tl => simp [List.dropWhile_cons, List.takeWhile_cons, hs, hdrop]
        · have hs' : m.succeeds = false := by simpa using hs
          simp only [migrate]
          rw [if_neg hmem, if_neg hs]
          unfold migrateDescribed
          rw [hp]
          simp [List.dropWhile_cons, List.takeWhile_cons, hs']

/-- `AgentState` from `packages/types`: status string, last-update time and
optional current task. -/
structure AgentState where
  status : String
  lastUpdated : ℤ
  currentTask : Option String
deriving DecidableEq, Repr

/-- A heap of `AgentState` objects; a reference is an index into the
allocation list, so distinct references are distinct objects. -/
structure Heap where
  objs : List AgentState
deriving DecidableEq, Repr

/-- Dereference a heap reference. -/
def Heap.deref (h : Heap) (r : ℕ) : Option AgentState := h.objs.get? r

/-- Allocate a fresh object, returning the new heap and its reference. -/
def Heap.alloc (h : Heap) (s : AgentState) : Heap × ℕ :=
  (⟨h.objs ++ [s]⟩, h.objs.length)

/-- Overwrite the object at a reference (modelling field assignment on the
object a reference points to). -/
def Heap.write (h : Heap) (r : ℕ) (s : AgentState) : Heap :=
  ⟨h.objs.set r s⟩

/-- A `BaseAgent` holds a reference to its internal `state` object. -/
structure BaseAgent where
  stateRef : ℕ
deriving DecidableEq, Repr

/-- `BaseAgent.getState`: `return { ...this.state }` — allocate a fresh
shallow copy of the internal state object and return a reference to it. -/
def getState (h : Heap) (a : BaseAgent) : Heap × ℕ :=
  h.alloc (h.objs.getD a.stateRef ⟨"idle", 0, none⟩)

theorem deref_alloc_old (h : Heap) (s : AgentState) (r : ℕ) (hr : r < h.objs.length) :
    (h.alloc s).1.deref r = h.deref r := by
  unfold Heap.alloc Heap.deref
  simp only [List.get?_eq_getElem?]
  exact List.getElem?_append_left hr

/-- C10: `getState` returns a fresh shallow copy — the returned reference is
distinct from the agent's internal reference, its object agrees with the
internal state on status, lastUpdated and currentTask at the time of the
call, and writing any value through the returned reference leaves the
internal state, and hence the object a later `getState` returns, unchanged. -/
theorem getState_fresh_copy (h : Heap) (a : BaseAgent) (s : AgentState)
    (hs : h.deref a.stateRef = some s) :
    (getState h a).2 ≠ a.stateRef ∧
    (∃ s2, (getState h a).1.deref (getState h a).2 = some s2 ∧
      s2.status = s.status ∧ s2.lastUpdated = s.lastUpdated ∧
      s2.currentTask = s.currentTask) ∧
    (∀ v, ((getState h a).1.write (getState h a).2 v).deref a.stateRef = some s ∧
      (getState ((getState h a).1.write (getState h a).2 v) a).1.deref
        (getState ((getState h a).1.write (getState h a).2 v) a).2 = some s) := by
  have hlen : a.stateRef < h.objs.length := by
    rw [Heap.deref, List.get?_eq_getElem?] at hs
    exact (List.getElem?_eq_some.mp hs).1
  have hgetD : h.objs.getD a.stateRef ⟨"idle", 0, none⟩ = s := by
    rw [List.getD_eq_getElem?_getD]
    rw [Heap.deref, List.get?_eq_getElem?] at hs
    rw [hs]
    rfl
  have hr2 : (getState h a).2 = h.objs.length := rfl
  refine ⟨?_, ?_, ?_⟩
  · rw [hr2]
    omega
  · refine ⟨s, ?_, rfl, rfl, rfl⟩
    show (h.alloc (h.objs.getD a.stateRef ⟨"idle", 0, none⟩)).1.deref h.objs.length = some s
    rw [hgetD]
    unfold Heap.alloc Heap.deref
    simp
  · intro v
    have hd : ∀ w : AgentState,
        (((h.alloc w).1.write (h.alloc w).2 v)).deref a.stateRef = h.deref a.stateRef := by
      intro w
      unfold Heap.alloc Heap.write Heap.deref
      simp only [List.get?_eq_getElem?]
      rw [List.getElem?_set_ne (by omega)]
      exact List.getElem?_append_left hlen
    have hd1 : ((getState h a).1.write (getState h a).2 v).deref a.stateRef = some s :=
      (hd _).trans hs
    refine ⟨hd1, ?_⟩
    set h2 := ((getState h a).1.write (getState h a).2 v) with hh2
    have hlen2 : a.stateRef < h2.objs.length := by
      rw [hh2]
      unfold getState Heap.alloc Heap.write
      simp only [List.length_set, List.length_append, List.length_cons, List.length_nil]
      omega
    have hgetD2 : h2.objs.getD a.stateRef ⟨"idle", 0, none⟩ = s := by
      rw [List.getD_eq_getElem?_getD]
      have := hd1
      rw [Heap.deref, List.get?_eq_getElem?] at this
      rw [this]
      rfl
    show (h2.alloc (h2.objs.getD a.stateRef ⟨"idle", 0, none⟩)).1.deref h2.objs.length =
      some s
    rw [hgetD2]
    unfold Heap.alloc Heap.deref
    simp

/-- C10 witness: for a one-object heap holding a running agent state, the
copy returned by `getState` is at a fresh reference and overwriting it
leaves the internal state readable unchanged. -/
theorem getState_fresh_copy_witness :
    (getState ⟨[⟨"running", 7, some "task-1"⟩]⟩ ⟨0⟩).2 ≠ (⟨0⟩ : BaseAgent).stateRef :=
  (getState_fresh_copy ⟨[⟨"running", 7, some "task-1"⟩]⟩ ⟨0⟩ ⟨"running", 7, some "task-1"⟩
    rfl).1

end Panhandler
